import Mathlib

/-!
Verification of the `BucketFileInterface` metadata backend (bucket-scoped
metadata service over an ordered KV store, CPS JavaScript source; two
source revisions, called `v000` and `v001` below where they differ).

The worker-side operations are shallowly embedded as pure Lean functions.
External collaborators are modelled by their observable outcomes:

* a `metastore.get` call is summarised by a `MetaGet` outcome (found with
  serialized data, a NotFound error, or any other error);
* `db.put` / `db.del` failures are boolean parameters;
* the bucket namespace content is an association-list store;
* `client.sublevel` lookups may throw (stale manifest), modelled by
  boolean parameters for the first and the retried lookup;
* the JSON builtin used for object values is modelled by an executable
  serializer and parser over a JSON value type (integers stand for the
  numeric payloads actually stored by the metadata layer);
* the event-emitter / callback control flow of an operation is reified as
  the list of observable events it performs (`ref`, `unRef`, callback
  invocations, uncaught throws), in execution order.
-/

/-- Public error taxonomy of the facade (arsenal errors used by the code). -/
inductive S3Error where
  | NoSuchBucket
  | BucketAlreadyExists
  | NoSuchObject
  | InternalError
deriving DecidableEq, Repr

/-- Outcome of a `metastore.get(bucketName, cb)` call: the callback either
receives data, an error with `err.notFound` set, or some other error. -/
inductive MetaGet where
  | found (data : String)
  | notFound
  | otherErr
deriving DecidableEq, Repr

/-- Whether the metastore lookup succeeded. -/
def MetaGet.isFound : MetaGet → Bool
  | .found _ => true
  | _ => false

/-- `checkDbExists` (both revisions): maps `err.notFound` to `(null, false)`,
any other error to `InternalError`, success to `(null, true)`. -/
def checkDbExists : MetaGet → Except S3Error Bool
  | .found _ => .ok true
  | .notFound => .ok false
  | .otherErr => .error .InternalError

/-- Control-flow outcome of `loadDBIfExists`: the callback is invoked with an
error (no reference taken), invoked with a namespace handle (one reference
taken; `retried` records whether the stale-manifest retry ran), or the
function throws out of the `checkDbExists` callback (no callback at all). -/
inductive LoadResult where
  | cbErr (e : S3Error)
  | cbOk (retried : Bool)
  | uncaught
deriving DecidableEq, Repr

/-- Result of running `loadDBIfExists`, together with the number of
`reConnect` calls it performed. -/
structure LoadRun where
  result : LoadResult
  reconnects : Nat
deriving DecidableEq, Repr

/-- `loadDBIfExists` (both revisions): check existence via the metastore,
then `try { db = this.client.sublevel(bucketName) } catch { this.reConnect();
db = this.client.sublevel(bucketName) }` — the retried lookup is NOT inside
a try block, so a second throw propagates uncaught. `sub1Throws` and
`sub2Throws` say whether the first and the retried `sublevel` lookup throw. -/
def loadDBIfExists (g : MetaGet) (sub1Throws sub2Throws : Bool) : LoadRun :=
  match checkDbExists g with
  | .error e => { result := .cbErr e, reconnects := 0 }
  | .ok false => { result := .cbErr .NoSuchBucket, reconnects := 0 }
  | .ok true =>
    if sub1Throws then
      if sub2Throws then { result := .uncaught, reconnects := 1 }
      else { result := .cbOk true, reconnects := 1 }
    else { result := .cbOk false, reconnects := 0 }

/-- `getBucketAttributes` (both revisions): `this.metastore.get(bucketName,
(err, data) => err ? cb(errors.NoSuchBucket) : cb(null,
BucketInfo.deSerialize(data)))`. Every error — NotFound or not — is mapped
to `NoSuchBucket`. `BucketInfo` is opaque to the core, so the
deSerialize/serialize pair is modelled as the identity on the stored blob. -/
def getBucketAttributes : MetaGet → Except S3Error String
  | .found data => .ok data
  | .notFound => .error .NoSuchBucket
  | .otherErr => .error .NoSuchBucket

/-- Observable events of one CPS operation, in execution order. -/
inductive Ev where
  | ref
  | unRef
  | cbOk
  | cbErr (e : S3Error)
  | throwEv
deriving DecidableEq, Repr

/-- Is this event a completion-callback invocation? -/
def Ev.isCb : Ev → Bool
  | .cbOk => true
  | .cbErr _ => true
  | _ => false

/-- The callback invocations of an event trace. -/
def cbEvents (evs : List Ev) : List Ev := evs.filter Ev.isCb

/-- Number of callback invocations in an event trace. -/
def cbCount (evs : List Ev) : Nat := (cbEvents evs).length

/-- `deleteBucket` of revision v000: `this.metastore.del(bucketName, err =>
err ? cb(errors.InternalError) : cb()); return undefined;` — exactly one
callback invocation, from the del completion. -/
def deleteBucketEvents000 (delFails : Bool) : List Ev :=
  [if delFails then .cbErr .InternalError else .cbOk]

/-- `deleteBucket` of revision v001: identical del call but the function ends
with `return cb(null);`. The del call only initiates the I/O, so the
synchronous `cb(null)` runs first and the del completion callback invokes
`cb` a second time. -/
def deleteBucketEvents001 (delFails : Bool) : List Ev :=
  .cbOk :: [if delFails then .cbErr .InternalError else .cbOk]

/-! ## Client session state machine (refcount, idle notifier, reconnect)

`reConnect` performs `realReConnect` immediately when `refcnt === 0`,
otherwise registers `this.notifier.on('idle', () => this.realReConnect())`.
`unRef` decrements, asserts non-negativity, and emits `'idle'` when the
count reaches 0 — at which point every registered listener runs (the
listeners are registered with `on`, not `once`, so they stay registered). -/

structure ClientState where
  refcnt : Int
  idleListeners : Nat
  realReconnects : Nat
deriving DecidableEq, Repr

inductive ClientEv where
  | refEv
  | unRefEv
  | reconnectEv
deriving DecidableEq, Repr

/-- One client action: `ref`, `unRef` (with its idle emission), `reConnect`. -/
def stepClient (s : ClientState) : ClientEv → ClientState
  | .refEv => { s with refcnt := s.refcnt + 1 }
  | .unRefEv =>
    if s.refcnt - 1 = 0 then
      { s with refcnt := 0, realReconnects := s.realReconnects + s.idleListeners }
    else { s with refcnt := s.refcnt - 1 }
  | .reconnectEv =>
    if s.refcnt = 0 then { s with realReconnects := s.realReconnects + 1 }
    else { s with idleListeners := s.idleListeners + 1 }

/-- Run a sequence of client actions. -/
def runClient (s : ClientState) (evs : List ClientEv) : ClientState :=
  evs.foldl stepClient s

/-! ## `_setCharAt` (`advance`)

`_setCharAt(str)` reads `str.charCodeAt(str.length - 1)`, adds one, and
rebuilds the string as `str.substr(0, str.length - 1) + fromCharCode(chr+1)`.
Strings are modelled as lists of code units; `String.fromCharCode` truncates
modulo 2^16, which the model keeps. -/

def setCharAt (s : List Nat) : List Nat :=
  s.dropLast ++ [(s.getLast?.getD 0 + 1) % 65536]

/-- A list whose `getLast?` is `some b` splits as `t ++ [b]`. -/
theorem getLast?_eq_some_split {α : Type} (s : List α) (b : α)
    (h : s.getLast? = some b) : ∃ t, s = t ++ [b] := by
  induction s with
  | nil => simp at h
  | cons x xs ih =>
    cases xs with
    | nil => simp_all
    | cons y ys =>
      rw [List.getLast?_cons_cons] at h
      obtain ⟨t, ht⟩ := ih h
      exact ⟨x :: t, by rw [ht]; rfl⟩

/-- Appending a strictly larger last element is lexicographically larger. -/
theorem lex_append_last (t : List Nat) (a c : Nat) (h : a < c) :
    List.Lex (· < ·) (t ++ [a]) (t ++ [c]) := by
  induction t with
  | nil => exact List.Lex.rel h
  | cons x xs ih => exact List.Lex.cons ih

/-! ## JSON model

`putObject` stores `JSON.stringify(objVal)` and `getObject` returns
`JSON.parse(data)`. The JS builtins are modelled by an executable
serializer and recursive-descent parser over a JSON value type. Numeric
payloads are modelled as integers; of the control characters, the ones
`JSON.stringify` writes as two-character escapes are escaped and the
remaining ones are kept verbatim (they do not occur in the metadata blobs
this backend stores). -/

inductive Json where
  | null
  | bool (b : Bool)
  | num (n : Int)
  | str (s : String)
  | arr (elems : List Json)
  | obj (fields : List (String × Json))
deriving Repr

/-- Decimal digit character. -/
def decDigit (d : Nat) : Char := Char.ofNat (48 + d)

/-- Decimal representation of a natural number. -/
def natChars (n : Nat) : List Char :=
  if n < 10 then [decDigit n]
  else natChars (n / 10) ++ [decDigit (n % 10)]
termination_by n
decreasing_by exact Nat.div_lt_self (by omega) (by omega)

/-- Decimal representation of an integer (as `JSON.stringify` prints it). -/
def intChars : Int → List Char
  | .ofNat n => natChars n
  | .negSucc m => '-' :: natChars (m + 1)

/-- String-body escaping used by the serializer. -/
def escChar (c : Char) : List Char :=
  if c = '"' then ['\\', '"']
  else if c = '\\' then ['\\', '\\']
  else if c = '\n' then ['\\', 'n']
  else if c = '\t' then ['\\', 't']
  else if c = '\r' then ['\\', 'r']
  else if c = '\x08' then ['\\', 'b']
  else if c = '\x0C' then ['\\', 'f']
  else [c]

def escString : List Char → List Char
  | [] => []
  | c :: t => escChar c ++ escString t

/-- A quoted object key. -/
def keyChars (k : String) : List Char := '"' :: escString k.data ++ ['"']

mutual

/-- `JSON.stringify` on the modelled value type. -/
def stringifyChars : Json → List Char
  | .null => "null".data
  | .bool true => "true".data
  | .bool false => "false".data
  | .num n => intChars n
  | .str s => '"' :: escString s.data ++ ['"']
  | .arr es => '[' :: elemsChars es ++ [']']
  | .obj fs => '{' :: fieldsChars fs ++ ['}']

def elemsChars : List Json → List Char
  | [] => []
  | [e] => stringifyChars e
  | e :: t => stringifyChars e ++ ',' :: elemsChars t

def fieldsChars : List (String × Json) → List Char
  | [] => []
  | [(k, v)] => keyChars k ++ ':' :: stringifyChars v
  | (k, v) :: t => keyChars k ++ ':' :: stringifyChars v ++ ',' :: fieldsChars t

end

theorem null_data : ("null" : String).data = ['n', 'u', 'l', 'l'] := rfl

theorem true_data : ("true" : String).data = ['t', 'r', 'u', 'e'] := rfl

theorem false_data : ("false" : String).data = ['f', 'a', 'l', 's', 'e'] := rfl

def headIs (ch : Char) : List Char → Bool
  | [] => false
  | c :: _ => c = ch

def headIsDigit : List Char → Bool
  | [] => false
  | c :: _ => c.isDigit

def headNotDigit (cs : List Char) : Bool := !headIsDigit cs

/-- Longest digit run at the head of the input, and the remainder. -/
def takeDigits : List Char → List Char × List Char
  | [] => ([], [])
  | c :: rest =>
    if c.isDigit then
      let p := takeDigits rest
      (c :: p.1, p.2)
    else ([], c :: rest)

/-- Value of a digit run. -/
def digitsVal (ds : List Char) : Nat :=
  ds.foldl (fun a c => 10 * a + (c.toNat - 48)) 0

def unescChar (c : Char) : Option Char :=
  if c = '"' then some '"'
  else if c = '\\' then some '\\'
  else if c = 'n' then some '\n'
  else if c = 't' then some '\t'
  else if c = 'r' then some '\r'
  else if c = 'b' then some '\x08'
  else if c = 'f' then some '\x0C'
  else none

/-- Parse a string body up to its closing quote. -/
def parseStrChars : List Char → Option (List Char × List Char)
  | [] => none
  | c :: rest =>
    if c = '"' then some ([], rest)
    else if c = '\\' then
      match rest with
      | [] => none
      | e :: rest2 =>
        match unescChar e, parseStrChars rest2 with
        | some u, some (s, r) => some (u :: s, r)
        | _, _ => none
    else
      match parseStrChars rest with
      | some (s, r) => some (c :: s, r)
      | none => none

/-- Match an expected literal tail. -/
def expectTok : List Char → List Char → Option (List Char)
  | [], cs => some cs
  | _ :: _, [] => none
  | t :: ts, c :: cs => if c = t then expectTok ts cs else none

/-- Parse a nonempty comma-separated element list up to `]`, with `pv`
parsing single values. -/
def parseElems (pv : List Char → Option (Json × List Char)) :
    Nat → List Char → Option (List Json × List Char)
  | 0, _ => none
  | fuel + 1, cs =>
    match pv cs with
    | none => none
    | some (v, r) =>
      match r with
      | [] => none
      | c :: r2 =>
        if c = ',' then
          match parseElems pv fuel r2 with
          | some (es, r3) => some (v :: es, r3)
          | none => none
        else if c = ']' then some ([v], r2)
        else none

/-- Parse a nonempty field list up to the closing brace. -/
def parseFields (pv : List Char → Option (Json × List Char)) :
    Nat → List Char → Option (List (String × Json) × List Char)
  | 0, _ => none
  | fuel + 1, cs =>
    match cs with
    | [] => none
    | c :: rest =>
      if c = '"' then
        match parseStrChars rest with
        | none => none
        | some (k, r1) =>
          match r1 with
          | [] => none
          | c1 :: r2 =>
            if c1 = ':' then
              match pv r2 with
              | none => none
              | some (v, r3) =>
                match r3 with
                | [] => none
                | c2 :: r4 =>
                  if c2 = ',' then
                    match parseFields pv fuel r4 with
                    | some (fs, r5) => some ((String.mk k, v) :: fs, r5)
                    | none => none
                  else if c2 = '}' then some ([(String.mk k, v)], r4)
                  else none
            else none
      else none

/-- Fuelled JSON value parser (`JSON.parse` model). -/
def parseVal : Nat → List Char → Option (Json × List Char)
  | 0, _ => none
  | fuel + 1, cs =>
    match cs with
    | [] => none
    | c :: rest =>
      if c = 'n' then
        match expectTok ['u', 'l', 'l'] rest with
        | some r => some (.null, r)
        | none => none
      else if c = 't' then
        match expectTok ['r', 'u', 'e'] rest with
        | some r => some (.bool true, r)
        | none => none
      else if c = 'f' then
        match expectTok ['a', 'l', 's', 'e'] rest with
        | some r => some (.bool false, r)
        | none => none
      else if c = '"' then
        match parseStrChars rest with
        | some (s, r) => some (.str (String.mk s), r)
        | none => none
      else if c = '[' then
        if headIs ']' rest then some (.arr [], rest.tail)
        else
          match parseElems (parseVal fuel) fuel rest with
          | some (es, r) => some (.arr es, r)
          | none => none
      else if c = '{' then
        if headIs '}' rest then some (.obj [], rest.tail)
        else
          match parseFields (parseVal fuel) fuel rest with
          | some (fs, r) => some (.obj fs, r)
          | none => none
      else if c = '-' then
        if headIsDigit rest then
          let p := takeDigits rest
          some (.num (-(digitsVal p.1 : Int)), p.2)
        else none
      else if c.isDigit then
        let p := takeDigits cs
        some (.num (digitsVal p.1 : Int), p.2)
      else none

/-- `JSON.stringify`. -/
def jsonStringify (v : Json) : String := String.mk (stringifyChars v)

/-- `JSON.parse`: `none` models the builtin throwing a SyntaxError. -/
def jsonParse (s : String) : Option Json :=
  match parseVal (s.data.length + 1) s.data with
  | some (v, []) => some v
  | _ => none

mutual

/-- Fuel needed by `parseVal` on a serialized value. -/
def sizeN : Json → Nat
  | .null => 1
  | .bool _ => 1
  | .num _ => 1
  | .str _ => 1
  | .arr es => 1 + sizeNL es
  | .obj fs => 1 + sizeNF fs

def sizeNL : List Json → Nat
  | [] => 0
  | e :: t => 1 + sizeN e + sizeNL t

def sizeNF : List (String × Json) → Nat
  | [] => 0
  | f :: t => 1 + sizeN f.2 + sizeNF t

end

/-- The guard a serialized value needs from what follows it: a number must
not be followed directly by another digit. -/
def numGuard : Json → List Char → Bool
  | .num _, rest => headNotDigit rest
  | _, _ => true

/-! ### Digit and number lemmas -/

theorem decDigit_toNat (d : Nat) (h : d < 10) : (decDigit d).toNat = 48 + d := by
  interval_cases d <;> rfl

theorem decDigit_isDigit (d : Nat) (h : d < 10) : (decDigit d).isDigit = true := by
  interval_cases d <;> decide

theorem natChars_ne_nil (n : Nat) : natChars n ≠ [] := by
  rw [natChars]
  split <;> simp

theorem natChars_digits (n : Nat) : ∀ c ∈ natChars n, c.isDigit = true := by
  induction n using Nat.strong_induction_on with
  | _ n ih =>
    rw [natChars]
    split
    · next h =>
      intro c hc
      simp only [List.mem_singleton] at hc
      subst hc
      exact decDigit_isDigit n h
    · next h =>
      intro c hc
      rw [List.mem_append] at hc
      rcases hc with hc | hc
      · exact ih (n / 10) (Nat.div_lt_self (by omega) (by omega)) c hc
      · simp only [List.mem_singleton] at hc
        subst hc
        exact decDigit_isDigit (n % 10) (Nat.mod_lt n (by omega))

theorem digitsVal_aux (n : Nat) : ∀ a : Nat,
    (natChars n).foldl (fun a c => 10 * a + (c.toNat - 48)) a
      = a * 10 ^ (natChars n).length + n := by
  induction n using Nat.strong_induction_on with
  | _ n ih =>
    intro a
    rw [natChars]
    split
    · next h =>
      simp [decDigit_toNat n h]
      omega
    · next h =>
      rw [List.foldl_append, List.length_append,
          ih (n / 10) (Nat.div_lt_self (by omega) (by omega)) a]
      simp [decDigit_toNat (n % 10) (Nat.mod_lt n (by omega))]
      rw [pow_succ]
      have hdm : 10 * (n / 10) + n % 10 = n := Nat.div_add_mod n 10
      ring_nf
      omega

theorem digitsVal_natChars (n : Nat) : digitsVal (natChars n) = n := by
  unfold digitsVal
  rw [digitsVal_aux]
  simp

theorem takeDigits_append (ds rest : List Char)
    (hds : ∀ c ∈ ds, c.isDigit = true) (hrest : headNotDigit rest = true) :
    takeDigits (ds ++ rest) = (ds, rest) := by
  induction ds with
  | nil =>
    simp only [List.nil_append]
    cases rest with
    | nil => rfl
    | cons c t =>
      simp only [headNotDigit, headIsDigit, Bool.not_eq_true'] at hrest
      simp [takeDigits, hrest]
  | cons c t ih =>
    have hc : c.isDigit = true := hds c (by simp)
    simp [takeDigits, hc, ih (fun x hx => hds x (by simp [hx]))]

/-! ### String-escape and token lemmas -/

theorem isDigit_ne (c ch : Char) (h : c.isDigit = true) (hch : ch.isDigit = false) :
    c ≠ ch := by
  intro e
  subst e
  rw [h] at hch
  cases hch

theorem parseStrChars_esc_cons (e u : Char) (X t r : List Char)
    (hu : unescChar e = some u) (h : parseStrChars X = some (t, r)) :
    parseStrChars ('\\' :: e :: X) = some (u :: t, r) := by
  rw [parseStrChars.eq_def]
  simp [hu, h]

theorem parseStrChars_plain_cons (c : Char) (X t r : List Char)
    (h1 : c ≠ '"') (h2 : c ≠ '\\') (h : parseStrChars X = some (t, r)) :
    parseStrChars (c :: X) = some (c :: t, r) := by
  rw [parseStrChars.eq_def]
  simp [h1, h2, h]

theorem parseStrChars_esc (s : List Char) (rest : List Char) :
    parseStrChars (escString s ++ '"' :: rest) = some (s, rest) := by
  induction s with
  | nil => simp [escString, parseStrChars.eq_def]
  | cons c t ih =>
    have hsplit : escString (c :: t) = escChar c ++ escString t := rfl
    rw [hsplit, List.append_assoc]
    by_cases h1 : c = '"'
    · subst h1
      exact parseStrChars_esc_cons _ _ _ _ _ rfl ih
    · by_cases h2 : c = '\\'
      · subst h2
        exact parseStrChars_esc_cons _ _ _ _ _ rfl ih
      · by_cases h3 : c = '\n'
        · subst h3
          exact parseStrChars_esc_cons _ _ _ _ _ rfl ih
        · by_cases h4 : c = '\t'
          · subst h4
            exact parseStrChars_esc_cons _ _ _ _ _ rfl ih
          · by_cases h5 : c = '\r'
            · subst h5
              exact parseStrChars_esc_cons _ _ _ _ _ rfl ih
            · by_cases h6 : c = '\x08'
              · subst h6
                exact parseStrChars_esc_cons _ _ _ _ _ rfl ih
              · by_cases h7 : c = '\x0C'
                · subst h7
                  exact parseStrChars_esc_cons _ _ _ _ _ rfl ih
                · have hesc : escChar c = [c] := by
                    simp [escChar, h1, h2, h3, h4, h5, h6, h7]
                  rw [hesc]
                  exact parseStrChars_plain_cons c _ t rest h1 h2 ih

theorem expectTok_append (tok rest : List Char) :
    expectTok tok (tok ++ rest) = some rest := by
  induction tok with
  | nil => rfl
  | cons c t ih => simp [expectTok, ih]

/-! ### Size and head-character lemmas -/

theorem sizeN_pos (v : Json) : 1 ≤ sizeN v := by
  cases v <;> simp [sizeN]

theorem sizeN_mem_le (es : List Json) (e : Json) (he : e ∈ es) :
    sizeN e ≤ sizeNL es := by
  induction es with
  | nil => cases he
  | cons x t ih =>
    rcases List.mem_cons.mp he with h | h
    · subst h; simp [sizeNL]; omega
    · have := ih h; simp [sizeNL]; omega

theorem length_le_sizeNL (es : List Json) : es.length ≤ sizeNL es := by
  induction es with
  | nil => simp [sizeNL]
  | cons x t ih => have := sizeN_pos x; simp [sizeNL]; omega

theorem sizeNF_mem_le (fs : List (String × Json)) (f : String × Json) (hf : f ∈ fs) :
    sizeN f.2 ≤ sizeNF fs := by
  induction fs with
  | nil => cases hf
  | cons x t ih =>
    rcases List.mem_cons.mp hf with h | h
    · subst h; simp [sizeNF]; omega
    · have := ih h; simp [sizeNF]; omega

theorem length_le_sizeNF (fs : List (String × Json)) : fs.length ≤ sizeNF fs := by
  induction fs with
  | nil => simp [sizeNF]
  | cons x t ih => have := sizeN_pos x.2; simp [sizeNF]; omega

theorem natChars_cons (n : Nat) : ∃ c ds, natChars n = c :: ds ∧ c.isDigit = true := by
  cases hn : natChars n with
  | nil => exact absurd hn (natChars_ne_nil n)
  | cons c ds =>
    refine ⟨c, ds, rfl, natChars_digits n c ?_⟩
    rw [hn]
    simp

theorem headIs_close_stringify (v : Json) (r : List Char) (br : Char)
    (h1 : br.isDigit = false) (h2 : br ≠ 'n') (h3 : br ≠ 't') (h4 : br ≠ 'f')
    (h5 : br ≠ '"') (h6 : br ≠ '[') (h7 : br ≠ '{') (h8 : br ≠ '-') :
    headIs br (stringifyChars v ++ r) = false := by
  cases v with
  | null => simpa [stringifyChars, headIs] using fun e => h2 e.symm
  | bool b =>
    cases b <;> simp [stringifyChars, headIs]
    · exact fun e => h4 e.symm
    · exact fun e => h3 e.symm
  | num i =>
    cases i with
    | ofNat n =>
      obtain ⟨c, ds, hn, hd⟩ := natChars_cons n
      have : stringifyChars (.num (Int.ofNat n)) = c :: ds := by
        simp [stringifyChars, intChars, hn]
      rw [this]
      simpa [headIs] using fun e => absurd h1 (by rw [← e, hd]; simp)
    | negSucc m =>
      simpa [stringifyChars, intChars, headIs] using fun e => h8 e.symm
  | str s => simpa [stringifyChars, headIs] using fun e => h5 e.symm
  | arr es => simpa [stringifyChars, headIs] using fun e => h6 e.symm
  | obj fs => simpa [stringifyChars, headIs] using fun e => h7 e.symm

/-! ### Parser branch lemmas -/

theorem parseVal_digit_head (fuel : Nat) (c : Char) (cs : List Char)
    (hd : c.isDigit = true) :
    parseVal (fuel + 1) (c :: cs) =
      some (.num (digitsVal (takeDigits (c :: cs)).1 : Int), (takeDigits (c :: cs)).2) := by
  have h1 : c ≠ 'n' := isDigit_ne c 'n' hd (by decide)
  have h2 : c ≠ 't' := isDigit_ne c 't' hd (by decide)
  have h3 : c ≠ 'f' := isDigit_ne c 'f' hd (by decide)
  have h4 : c ≠ '"' := isDigit_ne c '"' hd (by decide)
  have h5 : c ≠ '[' := isDigit_ne c '[' hd (by decide)
  have h6 : c ≠ '{' := isDigit_ne c '{' hd (by decide)
  have h7 : c ≠ '-' := isDigit_ne c '-' hd (by decide)
  simp [parseVal, h1, h2, h3, h4, h5, h6, h7, hd]

theorem parseVal_minus_head (fuel : Nat) (cs : List Char)
    (hd : headIsDigit cs = true) :
    parseVal (fuel + 1) ('-' :: cs) =
      some (.num (-(digitsVal (takeDigits cs).1 : Int)), (takeDigits cs).2) := by
  simp [parseVal, hd]

theorem parseElems_stringify (pv : List Char → Option (Json × List Char)) :
    ∀ es : List Json, es ≠ [] →
      (∀ e ∈ es, ∀ r, numGuard e r = true → pv (stringifyChars e ++ r) = some (e, r)) →
      ∀ fuel rest, es.length ≤ fuel →
        parseElems pv fuel (elemsChars es ++ ']' :: rest) = some (es, rest) := by
  intro es
  induction es with
  | nil => intro h; exact absurd rfl h
  | cons e tl ih =>
    intro _ hpv fuel rest hlen
    cases fuel with
    | zero => simp at hlen
    | succ f =>
      cases tl with
      | nil =>
        have h1 : elemsChars [e] = stringifyChars e := rfl
        rw [h1]
        have hg : numGuard e (']' :: rest) = true := by
          cases e <;> simp [numGuard, headNotDigit, headIsDigit]
        have hpe := hpv e (by simp) (']' :: rest) hg
        simp [parseElems, hpe]
      | cons e2 tl2 =>
        have h1 : elemsChars (e :: e2 :: tl2)
            = stringifyChars e ++ ',' :: elemsChars (e2 :: tl2) := rfl
        rw [h1, List.append_assoc]
        have hg : numGuard e (',' :: (elemsChars (e2 :: tl2) ++ ']' :: rest)) = true := by
          cases e <;> simp [numGuard, headNotDigit, headIsDigit]
        have hpe := hpv e (by simp) _ hg
        have hih := ih (by simp) (fun x hx r hr => hpv x (by simp [hx]) r hr) f rest
          (by simp at hlen ⊢; omega)
        simp [parseElems, hpe, List.cons_append, hih]

theorem parseFields_stringify (pv : List Char → Option (Json × List Char)) :
    ∀ fs : List (String × Json), fs ≠ [] →
      (∀ f ∈ fs, ∀ r, numGuard f.2 r = true →
        pv (stringifyChars f.2 ++ r) = some (f.2, r)) →
      ∀ fuel rest, fs.length ≤ fuel →
        parseFields pv fuel (fieldsChars fs ++ '}' :: rest) = some (fs, rest) := by
  intro fs
  induction fs with
  | nil => intro h; exact absurd rfl h
  | cons f tl ih =>
    intro _ hpv fuel rest hlen
    cases fuel with
    | zero => simp at hlen
    | succ fl =>
      obtain ⟨k, v⟩ := f
      cases tl with
      | nil =>
        have h1 : fieldsChars [(k, v)] = keyChars k ++ ':' :: stringifyChars v := rfl
        rw [h1]
        have hg : numGuard v ('}' :: rest) = true := by
          cases v <;> simp [numGuard, headNotDigit, headIsDigit]
        have hpe := hpv (k, v) (by simp) ('}' :: rest) hg
        have hkey : keyChars k ++ ':' :: stringifyChars v ++ '}' :: rest
            = '"' :: (escString k.data ++ '"' :: (':' :: (stringifyChars v ++ '}' :: rest))) := by
          simp [keyChars]
        rw [hkey]
        have hstr := parseStrChars_esc k.data (':' :: (stringifyChars v ++ '}' :: rest))
        simp [parseFields, hstr, hpe]
      | cons f2 tl2 =>
        have h1 : fieldsChars ((k, v) :: f2 :: tl2)
            = keyChars k ++ ':' :: stringifyChars v ++ ',' :: fieldsChars (f2 :: tl2) := rfl
        rw [h1]
        have hg : numGuard v (',' :: (fieldsChars (f2 :: tl2) ++ '}' :: rest)) = true := by
          cases v <;> simp [numGuard, headNotDigit, headIsDigit]
        have hpe := hpv (k, v) (by simp) _ hg
        have hih := ih (by simp) (fun x hx r hr => hpv x (by simp [hx]) r hr) fl rest
          (by simp at hlen ⊢; omega)
        have hkey : (keyChars k ++ ':' :: stringifyChars v ++ ',' :: fieldsChars (f2 :: tl2))
              ++ '}' :: rest
            = '"' :: (escString k.data ++ '"' ::
                (':' :: (stringifyChars v ++ ',' :: (fieldsChars (f2 :: tl2) ++ '}' :: rest)))) := by
          simp [keyChars]
        rw [hkey]
        have hstr := parseStrChars_esc k.data
          (':' :: (stringifyChars v ++ ',' :: (fieldsChars (f2 :: tl2) ++ '}' :: rest)))
        simp [parseFields, hstr, hpe, hih]

/-! ### Serializer/parser roundtrip -/

theorem parseVal_stringify : ∀ fuel (v : Json) (rest : List Char),
    sizeN v ≤ fuel → numGuard v rest = true →
    parseVal fuel (stringifyChars v ++ rest) = some (v, rest) := by
  intro fuel
  induction fuel with
  | zero =>
    intro v rest h _
    have := sizeN_pos v
    omega
  | succ f ih =>
    intro v rest hs hg
    cases v with
    | null => simp [stringifyChars, parseVal, expectTok]
    | bool b => cases b <;> simp [stringifyChars, parseVal, expectTok]
    | num i =>
      cases i with
      | ofNat n =>
        obtain ⟨c, ds, hn, hd⟩ := natChars_cons n
        have h0 : stringifyChars (.num (Int.ofNat n)) = natChars n := rfl
        have hdig : headNotDigit rest = true := by simpa [numGuard] using hg
        have htd : takeDigits (natChars n ++ rest) = (natChars n, rest) :=
          takeDigits_append (natChars n) rest (natChars_digits n) hdig
        rw [h0, hn, List.cons_append, parseVal_digit_head f c (ds ++ rest) hd,
            ← List.cons_append, ← hn, htd, digitsVal_natChars]
        rfl
      | negSucc m =>
        have h0 : stringifyChars (.num (Int.negSucc m)) = '-' :: natChars (m + 1) := rfl
        have hdig : headNotDigit rest = true := by simpa [numGuard] using hg
        obtain ⟨c, ds, hn, hd⟩ := natChars_cons (m + 1)
        have hhead : headIsDigit (natChars (m + 1) ++ rest) = true := by
          rw [hn]
          simpa [headIsDigit] using hd
        have htd : takeDigits (natChars (m + 1) ++ rest) = (natChars (m + 1), rest) :=
          takeDigits_append (natChars (m + 1)) rest (natChars_digits (m + 1)) hdig
        rw [h0, List.cons_append, parseVal_minus_head f _ hhead, htd, digitsVal_natChars]
        have : -((m + 1 : Nat) : Int) = Int.negSucc m := by
          rw [Int.negSucc_eq]
          push_cast
          ring
        rw [this]
    | str s =>
      have h0 : stringifyChars (.str s) ++ rest
          = '"' :: (escString s.data ++ '"' :: rest) := by
        simp [stringifyChars]
      rw [h0]
      have hstr := parseStrChars_esc s.data rest
      simp [parseVal, hstr]
    | arr es =>
      cases es with
      | nil => simp [stringifyChars, elemsChars, parseVal, headIs]
      | cons e tl =>
        have h0 : stringifyChars (.arr (e :: tl)) ++ rest
            = '[' :: (elemsChars (e :: tl) ++ ']' :: rest) := by
          simp [stringifyChars]
        rw [h0]
        have hsz : sizeNL (e :: tl) ≤ f := by
          have : sizeN (.arr (e :: tl)) = 1 + sizeNL (e :: tl) := rfl
          omega
        have hhead : headIs ']' (elemsChars (e :: tl) ++ ']' :: rest) = false := by
          obtain ⟨Y, hY⟩ : ∃ Y, elemsChars (e :: tl) ++ ']' :: rest
              = stringifyChars e ++ Y := by
            cases tl with
            | nil => exact ⟨']' :: rest, rfl⟩
            | cons e2 tl2 =>
              refine ⟨',' :: (elemsChars (e2 :: tl2) ++ ']' :: rest), ?_⟩
              simp [elemsChars]
          rw [hY]
          exact headIs_close_stringify e Y ']' (by decide) (by decide) (by decide)
            (by decide) (by decide) (by decide) (by decide) (by decide)
        have helems := parseElems_stringify (parseVal f) (e :: tl) (by simp)
          (fun x hx r hr => ih x r (le_trans (sizeN_mem_le _ x hx) hsz) hr)
          f rest (le_trans (length_le_sizeNL (e :: tl)) hsz)
        simp [parseVal, hhead, helems]
    | obj fs =>
      cases fs with
      | nil => simp [stringifyChars, fieldsChars, parseVal, headIs]
      | cons fd tl =>
        have h0 : stringifyChars (.obj (fd :: tl)) ++ rest
            = '{' :: (fieldsChars (fd :: tl) ++ '}' :: rest) := by
          simp [stringifyChars]
        rw [h0]
        have hsz : sizeNF (fd :: tl) ≤ f := by
          have : sizeN (.obj (fd :: tl)) = 1 + sizeNF (fd :: tl) := rfl
          omega
        have hhead : headIs '}' (fieldsChars (fd :: tl) ++ '}' :: rest) = false := by
          obtain ⟨k, v⟩ := fd
          have h1 : ∃ Y, fieldsChars ((k, v) :: tl) ++ '}' :: rest = '"' :: Y := by
            cases tl with
            | nil => exact ⟨(escString k.data ++ ['"']) ++ ':' :: stringifyChars v
                ++ '}' :: rest, by simp [fieldsChars, keyChars]⟩
            | cons f2 tl2 => exact ⟨(escString k.data ++ ['"']) ++ ':' :: stringifyChars v
                ++ ',' :: fieldsChars (f2 :: tl2) ++ '}' :: rest,
                by simp [fieldsChars, keyChars]⟩
          obtain ⟨Y, hY⟩ := h1
          rw [hY]
          simp [headIs]
        have hfields := parseFields_stringify (parseVal f) (fd :: tl) (by simp)
          (fun x hx r hr => ih x.2 r (le_trans (sizeNF_mem_le _ x hx) hsz) hr)
          f rest (le_trans (length_le_sizeNF (fd :: tl)) hsz)
        simp [parseVal, hhead, hfields]

mutual

theorem sizeN_le_len : ∀ v : Json, sizeN v ≤ (stringifyChars v).length
  | .null => by simp [sizeN, stringifyChars]
  | .bool b => by cases b <;> simp [sizeN, stringifyChars]
  | .num i => by
    have h : 1 ≤ (stringifyChars (.num i)).length := by
      cases i with
      | ofNat n =>
        have := natChars_ne_nil n
        have : 0 < (natChars n).length := List.length_pos.mpr this
        simpa [stringifyChars, intChars] using this
      | negSucc m => simp [stringifyChars, intChars]
    simpa [sizeN] using h
  | .str s => by simp [sizeN, stringifyChars]
  | .arr es => by
    have h := sizeNL_le_len es
    have hl : (stringifyChars (.arr es)).length = (elemsChars es).length + 2 := by
      simp [stringifyChars]
    simp only [sizeN, hl]
    omega
  | .obj fs => by
    have h := sizeNF_le_len fs
    have hl : (stringifyChars (.obj fs)).length = (fieldsChars fs).length + 2 := by
      simp [stringifyChars]
    simp only [sizeN, hl]
    omega

theorem sizeNL_le_len : ∀ es : List Json, sizeNL es ≤ (elemsChars es).length + 1
  | [] => by simp [sizeNL, elemsChars]
  | [e] => by
    have h := sizeN_le_len e
    have hl : elemsChars [e] = stringifyChars e := rfl
    simp only [sizeNL, hl]
    omega
  | e :: e2 :: tl => by
    have h1 := sizeN_le_len e
    have h2 := sizeNL_le_len (e2 :: tl)
    have hl : elemsChars (e :: e2 :: tl)
        = stringifyChars e ++ ',' :: elemsChars (e2 :: tl) := rfl
    simp only [sizeNL] at h2
    simp only [sizeNL, hl, List.length_append, List.length_cons]
    omega

theorem sizeNF_le_len : ∀ fs : List (String × Json), sizeNF fs ≤ (fieldsChars fs).length + 1
  | [] => by simp [sizeNF, fieldsChars]
  | [(k, v)] => by
    have h := sizeN_le_len v
    have hl : fieldsChars [(k, v)] = keyChars k ++ ':' :: stringifyChars v := rfl
    simp only [sizeNF, hl, List.length_append, List.length_cons]
    omega
  | (k, v) :: f2 :: tl => by
    have h1 := sizeN_le_len v
    have h2 := sizeNF_le_len (f2 :: tl)
    have hl : fieldsChars ((k, v) :: f2 :: tl)
        = keyChars k ++ ':' :: stringifyChars v ++ ',' :: fieldsChars (f2 :: tl) := rfl
    simp only [sizeNF] at h2
    simp only [sizeNF, hl, List.length_append, List.length_cons]
    omega

end

/-- The JSON roundtrip: every value serialized by the model of
`JSON.stringify` is recovered exactly by the model of `JSON.parse`. -/
theorem jsonParse_stringify (v : Json) : jsonParse (jsonStringify v) = some v := by
  have hg : numGuard v [] = true := by
    cases v <;> simp [numGuard, headNotDigit, headIsDigit]
  have h := parseVal_stringify ((stringifyChars v).length + 1) v []
    (le_trans (sizeN_le_len v) (by omega)) hg
  rw [List.append_nil] at h
  simp [jsonParse, jsonStringify, h]

/-! ## Namespace store and object operations

The bucket namespace (a sublevel of the ordered KV store) is modelled as an
association list with latest-write-first lookup. -/

abbrev DbStore := List (String × String)

/-- `db.put(objName, value)`. -/
def storePut (st : DbStore) (k v : String) : DbStore := (k, v) :: st

/-- `db.get(objName)`: `none` models the `err.notFound` outcome. -/
def storeGet (st : DbStore) (k : String) : Option String :=
  (st.find? (fun p => p.1 == k)).map (fun p => p.2)

/-- Outcome of `getObject`: callback with an error, callback with the parsed
value, or an exception escaping the completion path. -/
inductive GetOutcome where
  | cbErr (e : S3Error)
  | cbOkVal (v : Json)
  | thrown
deriving Repr

/-- `getObject` (both revisions): `loadDBIfExists` then `db.get`; the inner
callback runs `unRef` first, maps `err.notFound` to `NoSuchObject`, any other
get error to `InternalError`, and otherwise calls `cb(null, JSON.parse(data))`
with the parse unguarded — a parse failure throws. `getFails` models a
non-NotFound error from `db.get`. -/
def getObject (g : MetaGet) (s1 s2 : Bool) (st : DbStore) (k : String)
    (getFails : Bool) : GetOutcome :=
  match (loadDBIfExists g s1 s2).result with
  | .cbErr e => .cbErr e
  | .uncaught => .thrown
  | .cbOk _ =>
    if getFails then .cbErr .InternalError
    else
      match storeGet st k with
      | none => .cbErr .NoSuchObject
      | some data =>
        match jsonParse data with
        | some v => .cbOkVal v
        | none => .thrown

/-- Outcome of `putObject` / `deleteObject`. -/
inductive PutOutcome where
  | cbErrP (e : S3Error)
  | cbOkP
  | thrownP
deriving DecidableEq, Repr

/-- `putObject` (both revisions): `loadDBIfExists`, then
`db.put(objName, JSON.stringify(objVal), OPTIONS, ...)`; the inner callback
runs `unRef` and maps a put error to `InternalError`. -/
def putObject (g : MetaGet) (s1 s2 : Bool) (st : DbStore) (k : String) (v : Json)
    (putFails : Bool) : DbStore × PutOutcome :=
  match (loadDBIfExists g s1 s2).result with
  | .cbErr e => (st, .cbErrP e)
  | .uncaught => (st, .thrownP)
  | .cbOk _ =>
    if putFails then (st, .cbErrP .InternalError)
    else (storePut st k (jsonStringify v), .cbOkP)

/-- Outcome of `getBucketAndObject`. -/
inductive GBOOutcome where
  | errOut (e : S3Error)
  | bucketOnly (bucket : String)
  | bucketObj (bucket : String) (obj : String)
  | thrownOut
deriving DecidableEq, Repr

/-- `getBucketAndObject` (both revisions): `getBucketAttributes`, then
`loadDBIfExists`, then `db.get(objName)`; the inner callback runs `unRef`,
returns `{bucket}` without `obj` when the object get reports `notFound`,
`InternalError` on any other get error, and `{bucket, obj}` on success.
The serialized attributes are returned as-is (`bucketAttr.serialize()`). -/
def getBucketAndObject (gAttr gCheck : MetaGet) (s1 s2 : Bool) (st : DbStore)
    (k : String) (getFails : Bool) : GBOOutcome :=
  match getBucketAttributes gAttr with
  | .error e => .errOut e
  | .ok attr =>
    match (loadDBIfExists gCheck s1 s2).result with
    | .cbErr e => .errOut e
    | .uncaught => .thrownOut
    | .cbOk _ =>
      if getFails then .errOut .InternalError
      else
        match storeGet st k with
        | none => .bucketOnly attr
        | some objAttr => .bucketObj attr objAttr

/-! ## Event traces of the operations -/

/-- Final inner event of `putObject` / `deleteObject` after `unRef`. -/
def putTailEv (opFails : Bool) : Ev :=
  if opFails then .cbErr .InternalError else .cbOk

/-- Final inner event of `getObject` after `unRef`: error callback, success
callback, or the unguarded `JSON.parse` throwing. -/
def getTailEv (st : DbStore) (k : String) (getFails : Bool) : Ev :=
  if getFails then .cbErr .InternalError
  else
    match storeGet st k with
    | none => .cbErr .NoSuchObject
    | some data =>
      match jsonParse data with
      | some _ => .cbOk
      | none => .throwEv

/-- Dispatch on the `loadDBIfExists` outcome: its error callback, the
uncaught throw, or — once the handle is acquired — the inner trace. -/
def loadShapeEvents (lr : LoadResult) (inner : List Ev) : List Ev :=
  match lr with
  | .cbErr e => [.cbErr e]
  | .uncaught => [.throwEv]
  | .cbOk _ => inner

/-- Event trace of `putObject`. -/
def putObjectEvents (g : MetaGet) (s1 s2 putFails : Bool) : List Ev :=
  loadShapeEvents (loadDBIfExists g s1 s2).result [.ref, .unRef, putTailEv putFails]

/-- Event trace of `deleteObject` (same control-flow shape as `putObject`). -/
def deleteObjectEvents (g : MetaGet) (s1 s2 delFails : Bool) : List Ev :=
  loadShapeEvents (loadDBIfExists g s1 s2).result [.ref, .unRef, putTailEv delFails]

/-- Event trace of `getObject`. -/
def getObjectEvents (g : MetaGet) (s1 s2 : Bool) (st : DbStore) (k : String)
    (getFails : Bool) : List Ev :=
  loadShapeEvents (loadDBIfExists g s1 s2).result [.ref, .unRef, getTailEv st k getFails]

/-- Event trace of `getBucketAndObject` (`db.get` outcomes both invoke the
callback successfully, with or without the `obj` field). -/
def attrShapeEvents (ga : Except S3Error String) (inner : List Ev) : List Ev :=
  match ga with
  | .error e => [.cbErr e]
  | .ok _ => inner

def getBucketAndObjectEvents (gAttr gCheck : MetaGet) (s1 s2 getFails : Bool) :
    List Ev :=
  attrShapeEvents (getBucketAttributes gAttr)
    (loadShapeEvents (loadDBIfExists gCheck s1 s2).result [.ref, .unRef, putTailEv getFails])

/-! ## Listing engine events (`internalListObject`)

The read stream emits `data` for each scanned entry and then one terminal
event. When `extension.filter(e)` returns `false` the data handler emits a
synthetic `end` and destroys the stream; the natural terminal event may still
be delivered afterwards, which is exactly what the `cbDone` guard absorbs. -/

inductive StreamEnd where
  | endEv
  | errorEv
deriving DecidableEq, Repr

inductive SEv where
  | dataEv (key : String)
  | endSE
  | errorSE
deriving DecidableEq, Repr

def finToEv : StreamEnd → SEv
  | .endEv => .endSE
  | .errorEv => .errorSE

/-- Stream events actually delivered to the handlers: scanned entries up to
the first filter rejection, a synthetic `end` on rejection, then the natural
terminal event. -/
def eventsOf (f : String → Bool) : List String → StreamEnd → List SEv
  | [], fin => [finToEv fin]
  | e :: rest, fin =>
    .dataEv e :: (if f e then eventsOf f rest fin else [.endSE, finToEv fin])

/-- The `error` / `end` handlers with the `cbDone` guard: the first terminal
event runs `unRef` and invokes the callback (with `extension.result()` on
`end`, `InternalError` on `error`); later terminal events do nothing. -/
def handleEvents : Bool → List SEv → List Ev
  | _, [] => []
  | cbDone, .dataEv _ :: rest => handleEvents cbDone rest
  | cbDone, .endSE :: rest =>
    if cbDone then handleEvents cbDone rest
    else .unRef :: .cbOk :: handleEvents true rest
  | cbDone, .errorSE :: rest =>
    if cbDone then handleEvents cbDone rest
    else .unRef :: .cbErr .InternalError :: handleEvents true rest

/-- Event trace of `internalListObject` (`listObject` and
`listMultipartUploads` both delegate here). -/
def internalListObjectEvents (f : String → Bool) (g : MetaGet) (s1 s2 : Bool)
    (entries : List String) (fin : StreamEnd) : List Ev :=
  loadShapeEvents (loadDBIfExists g s1 s2).result
    (.ref :: handleEvents false (eventsOf f entries fin))

/-! ## Operation sequences and the refcount -/

/-- One façade operation together with the outcomes of its external calls. -/
inductive OpRun where
  | putOp (g : MetaGet) (s1 s2 putFails : Bool)
  | getOp (g : MetaGet) (s1 s2 : Bool) (st : DbStore) (k : String) (getFails : Bool)
  | delOp (g : MetaGet) (s1 s2 delFails : Bool)
  | getBothOp (gAttr gCheck : MetaGet) (s1 s2 getFails : Bool)
  | listOp (f : String → Bool) (g : MetaGet) (s1 s2 : Bool)
      (entries : List String) (fin : StreamEnd)

def opEvents : OpRun → List Ev
  | .putOp g s1 s2 pf => putObjectEvents g s1 s2 pf
  | .getOp g s1 s2 st k gf => getObjectEvents g s1 s2 st k gf
  | .delOp g s1 s2 df => deleteObjectEvents g s1 s2 df
  | .getBothOp ga gc s1 s2 gf => getBucketAndObjectEvents ga gc s1 s2 gf
  | .listOp f g s1 s2 entries fin => internalListObjectEvents f g s1 s2 entries fin

def opsEvents (ops : List OpRun) : List Ev := (ops.map opEvents).flatten

/-- Did `loadDBIfExists` hand out a namespace handle (and take a reference)? -/
def LoadResult.acquired : LoadResult → Bool
  | .cbOk _ => true
  | _ => false

/-- Whether the operation acquired a namespace handle via `loadDBIfExists`. -/
def acquiresHandle : OpRun → Bool
  | .putOp g s1 s2 _ => (loadDBIfExists g s1 s2).result.acquired
  | .getOp g s1 s2 _ _ _ => (loadDBIfExists g s1 s2).result.acquired
  | .delOp g s1 s2 _ => (loadDBIfExists g s1 s2).result.acquired
  | .getBothOp ga gc s1 s2 _ =>
    (getBucketAttributes ga).isOk && (loadDBIfExists gc s1 s2).result.acquired
  | .listOp _ g s1 s2 _ _ => (loadDBIfExists g s1 s2).result.acquired

def Ev.isRefEvent : Ev → Bool
  | .ref => true
  | .unRef => true
  | _ => false

def refEvents (evs : List Ev) : List Ev := evs.filter Ev.isRefEvent

def applyEv (n : Int) : Ev → Int
  | .ref => n + 1
  | .unRef => n - 1
  | _ => n

/-- The refcount after an event trace, starting from `n`. -/
def runRefcnt (n : Int) (evs : List Ev) : Int := evs.foldl applyEv n

/-- `refcnt` stays non-negative through the whole trace. -/
def refNonneg : Int → List Ev → Bool
  | _, [] => true
  | n, e :: rest => (decide (0 ≤ applyEv n e)) && refNonneg (applyEv n e) rest

def countRef (evs : List Ev) : Nat := evs.countP (fun e => e == Ev.ref)

def countUnRef (evs : List Ev) : Nat := evs.countP (fun e => e == Ev.unRef)

/-! ### Refcount lemmas -/

theorem isRefEvent_putTail (b : Bool) : Ev.isRefEvent (putTailEv b) = false := by
  cases b <;> rfl

theorem isRefEvent_getTail (st : DbStore) (k : String) (gf : Bool) :
    Ev.isRefEvent (getTailEv st k gf) = false := by
  unfold getTailEv
  cases gf
  · cases hs : storeGet st k with
    | none => simp [hs, Ev.isRefEvent]
    | some data => cases hp : jsonParse data <;> simp [hs, hp, Ev.isRefEvent]
  · simp [Ev.isRefEvent]

theorem handleEvents_eventsOf (f : String → Bool) :
    ∀ (entries : List String) (fin : StreamEnd),
    handleEvents false (eventsOf f entries fin) =
      if entries.any (fun e => !f e) || fin == StreamEnd.endEv
      then [.unRef, .cbOk] else [.unRef, .cbErr .InternalError] := by
  intro entries
  induction entries with
  | nil =>
    intro fin
    cases fin <;> simp [eventsOf, finToEv, handleEvents]
  | cons e tl ih =>
    intro fin
    by_cases hf : f e
    · simp [eventsOf, hf, handleEvents, ih fin]
    · simp only [eventsOf, Bool.not_eq_true] at hf ⊢
      rw [hf]
      simp only [if_neg Bool.false_ne_true, handleEvents, if_neg Bool.false_ne_true]
      cases fin <;> simp [handleEvents, finToEv, hf]

theorem refEvents_handleEvents (f : String → Bool) (entries : List String)
    (fin : StreamEnd) :
    refEvents (handleEvents false (eventsOf f entries fin)) = [Ev.unRef] := by
  rw [handleEvents_eventsOf]
  split <;> simp [refEvents, Ev.isRefEvent]

/-- `refEvents` of the load-shape dispatch. -/
theorem refEvents_loadShape (lr : LoadResult) (inner : List Ev) :
    refEvents (loadShapeEvents lr inner)
      = (if lr.acquired then refEvents inner else []) := by
  cases lr <;> simp [loadShapeEvents, refEvents, Ev.isRefEvent, LoadResult.acquired]

/-- `refEvents` of the bucket-attributes dispatch. -/
theorem refEvents_attrShape (ga : Except S3Error String) (inner : List Ev) :
    refEvents (attrShapeEvents ga inner)
      = (if ga.isOk then refEvents inner else []) := by
  cases ga <;> simp [attrShapeEvents, refEvents, Ev.isRefEvent, Except.isOk, Except.toBool]

theorem isRefEvent_ref : Ev.isRefEvent Ev.ref = true := rfl

theorem isRefEvent_unRef : Ev.isRefEvent Ev.unRef = true := rfl

/-- Every operation's trace performs a balanced `ref`/`unRef` pair exactly
when it acquired a handle, and no reference events otherwise. -/
theorem refEvents_opEvents (op : OpRun) :
    refEvents (opEvents op) = (if acquiresHandle op then [Ev.ref, Ev.unRef] else []) := by
  cases op with
  | putOp g s1 s2 pf =>
    simp only [opEvents, putObjectEvents, acquiresHandle, refEvents_loadShape]
    simp [refEvents, List.filter_cons, isRefEvent_ref, isRefEvent_unRef, isRefEvent_putTail]
  | getOp g s1 s2 st k gf =>
    simp only [opEvents, getObjectEvents, acquiresHandle, refEvents_loadShape]
    simp [refEvents, List.filter_cons, isRefEvent_ref, isRefEvent_unRef, isRefEvent_getTail]
  | delOp g s1 s2 df =>
    simp only [opEvents, deleteObjectEvents, acquiresHandle, refEvents_loadShape]
    simp [refEvents, List.filter_cons, isRefEvent_ref, isRefEvent_unRef, isRefEvent_putTail]
  | getBothOp ga gc s1 s2 gf =>
    simp only [opEvents, getBucketAndObjectEvents, acquiresHandle, refEvents_attrShape,
      refEvents_loadShape]
    by_cases hga : (getBucketAttributes ga).isOk <;>
      simp [hga, refEvents, List.filter_cons, isRefEvent_ref, isRefEvent_unRef,
        isRefEvent_putTail]
  | listOp f g s1 s2 entries fin =>
    simp only [opEvents, internalListObjectEvents, acquiresHandle, refEvents_loadShape]
    have h := refEvents_handleEvents f entries fin
    simp only [refEvents] at h
    simp [refEvents, List.filter_cons, isRefEvent_ref, h]

/-- Running the counter over a trace whose reference events are `[]`,
`[unRef]`, or `[ref, unRef]`. -/
theorem refTrace_run (evs : List Ev) : ∀ r : Int,
    (refEvents evs = [] → runRefcnt r evs = r ∧ (0 ≤ r → refNonneg r evs = true)) ∧
    (refEvents evs = [Ev.unRef] →
      runRefcnt r evs = r - 1 ∧ (1 ≤ r → refNonneg r evs = true)) ∧
    (refEvents evs = [Ev.ref, Ev.unRef] →
      runRefcnt r evs = r ∧ (0 ≤ r → refNonneg r evs = true)) := by
  induction evs with
  | nil =>
    intro r
    refine ⟨fun _ => ⟨rfl, fun _ => rfl⟩, fun h => ?_, fun h => ?_⟩ <;>
      simp [refEvents] at h
  | cons e t ih =>
    intro r
    cases e with
    | ref =>
      refine ⟨fun h => ?_, fun h => ?_, fun h => ?_⟩
      · simp [refEvents, Ev.isRefEvent] at h
      · simp [refEvents, Ev.isRefEvent] at h
      · have ht : refEvents t = [Ev.unRef] := by
          simpa [refEvents, Ev.isRefEvent] using h
        have h2 := ((ih (r + 1)).2.1) ht
        constructor
        · show runRefcnt (r + 1) t = r
          rw [h2.1]
          ring
        · intro hr
          show (decide (0 ≤ r + 1) && refNonneg (r + 1) t) = true
          rw [decide_eq_true (by omega), h2.2 (by omega)]
          rfl
    | unRef =>
      refine ⟨fun h => ?_, fun h => ?_, fun h => ?_⟩
      · simp [refEvents, Ev.isRefEvent] at h
      · have ht : refEvents t = [] := by
          simpa [refEvents, Ev.isRefEvent] using h
        have h2 := (ih (r - 1)).1 ht
        constructor
        · show runRefcnt (r - 1) t = r - 1
          exact h2.1
        · intro hr
          show (decide (0 ≤ r - 1) && refNonneg (r - 1) t) = true
          rw [decide_eq_true (by omega), h2.2 (by omega)]
          rfl
      · simp [refEvents, Ev.isRefEvent] at h
    | cbOk =>
      have hre : refEvents (Ev.cbOk :: t) = refEvents t := by
        simp [refEvents, Ev.isRefEvent]
      have happ : applyEv r Ev.cbOk = r := rfl
      refine ⟨fun h => ?_, fun h => ?_, fun h => ?_⟩ <;> rw [hre] at h
      · exact ⟨((ih r).1 h).1, fun hr => by
          show (decide (0 ≤ r) && refNonneg r t) = true
          rw [decide_eq_true hr, ((ih r).1 h).2 hr]
          rfl⟩
      · exact ⟨((ih r).2.1 h).1, fun hr => by
          show (decide (0 ≤ r) && refNonneg r t) = true
          rw [decide_eq_true (by omega), ((ih r).2.1 h).2 hr]
          rfl⟩
      · exact ⟨((ih r).2.2 h).1, fun hr => by
          show (decide (0 ≤ r) && refNonneg r t) = true
          rw [decide_eq_true hr, ((ih r).2.2 h).2 hr]
          rfl⟩
    | cbErr e2 =>
      have hre : refEvents (Ev.cbErr e2 :: t) = refEvents t := by
        simp [refEvents, Ev.isRefEvent]
      refine ⟨fun h => ?_, fun h => ?_, fun h => ?_⟩ <;> rw [hre] at h
      · exact ⟨((ih r).1 h).1, fun hr => by
          show (decide (0 ≤ r) && refNonneg r t) = true
          rw [decide_eq_true hr, ((ih r).1 h).2 hr]
          rfl⟩
      · exact ⟨((ih r).2.1 h).1, fun hr => by
          show (decide (0 ≤ r) && refNonneg r t) = true
          rw [decide_eq_true (by omega), ((ih r).2.1 h).2 hr]
          rfl⟩
      · exact ⟨((ih r).2.2 h).1, fun hr => by
          show (decide (0 ≤ r) && refNonneg r t) = true
          rw [decide_eq_true hr, ((ih r).2.2 h).2 hr]
          rfl⟩
    | throwEv =>
      have hre : refEvents (Ev.throwEv :: t) = refEvents t := by
        simp [refEvents, Ev.isRefEvent]
      refine ⟨fun h => ?_, fun h => ?_, fun h => ?_⟩ <;> rw [hre] at h
      · exact ⟨((ih r).1 h).1, fun hr => by
          show (decide (0 ≤ r) && refNonneg r t) = true
          rw [decide_eq_true hr, ((ih r).1 h).2 hr]
          rfl⟩
      · exact ⟨((ih r).2.1 h).1, fun hr => by
          show (decide (0 ≤ r) && refNonneg r t) = true
          rw [decide_eq_true (by omega), ((ih r).2.1 h).2 hr]
          rfl⟩
      · exact ⟨((ih r).2.2 h).1, fun hr => by
          show (decide (0 ≤ r) && refNonneg r t) = true
          rw [decide_eq_true hr, ((ih r).2.2 h).2 hr]
          rfl⟩

/-- A single operation leaves the refcount unchanged and keeps it
non-negative. -/
theorem opEvents_balanced (op : OpRun) (r : Int) (hr : 0 ≤ r) :
    runRefcnt r (opEvents op) = r ∧ refNonneg r (opEvents op) = true := by
  have hre := refEvents_opEvents op
  by_cases h : acquiresHandle op
  · rw [if_pos h] at hre
    exact ⟨((refTrace_run (opEvents op) r).2.2 hre).1,
      ((refTrace_run (opEvents op) r).2.2 hre).2 hr⟩
  · rw [if_neg h] at hre
    exact ⟨((refTrace_run (opEvents op) r).1 hre).1,
      ((refTrace_run (opEvents op) r).1 hre).2 hr⟩

theorem runRefcnt_append (n : Int) (a b : List Ev) :
    runRefcnt n (a ++ b) = runRefcnt (runRefcnt n a) b := by
  simp [runRefcnt, List.foldl_append]

theorem refNonneg_append (a : List Ev) : ∀ (n : Int) (b : List Ev),
    refNonneg n (a ++ b) = (refNonneg n a && refNonneg (runRefcnt n a) b) := by
  induction a with
  | nil => intro n b; simp [refNonneg, runRefcnt]
  | cons e t ih =>
    intro n b
    show (decide (0 ≤ applyEv n e) && refNonneg (applyEv n e) (t ++ b)) = _
    rw [ih (applyEv n e) b]
    have : runRefcnt n (e :: t) = runRefcnt (applyEv n e) t := rfl
    rw [this]
    show _ = ((decide (0 ≤ applyEv n e) && refNonneg (applyEv n e) t) && _)
    rw [Bool.and_assoc]

/-- Any sequence of completed operations returns the refcount to 0 and never
drives it negative. -/
theorem opsEvents_quiescent (ops : List OpRun) :
    runRefcnt 0 (opsEvents ops) = 0 ∧ refNonneg 0 (opsEvents ops) = true := by
  induction ops with
  | nil => exact ⟨rfl, rfl⟩
  | cons op t ih =>
    have hsplit : opsEvents (op :: t) = opEvents op ++ opsEvents t := by
      simp [opsEvents]
    have h1 := opEvents_balanced op 0 (le_refl 0)
    rw [hsplit, runRefcnt_append, refNonneg_append, h1.1]
    exact ⟨ih.1, by rw [h1.2, ih.2]; rfl⟩

/-- Counting `ref` / `unRef` only depends on the reference events. -/
theorem countRef_refEvents (evs : List Ev) :
    countRef evs = countRef (refEvents evs) ∧
      countUnRef evs = countUnRef (refEvents evs) := by
  induction evs with
  | nil => exact ⟨rfl, rfl⟩
  | cons e t ih =>
    cases e <;>
      simp [countRef, countUnRef, refEvents, Ev.isRefEvent, List.countP_cons] at ih ⊢ <;>
      omega

/-- Each operation executes `unRef` exactly once when it acquired a handle
and never otherwise, matching its `ref` count. -/
theorem opEvents_unRef_once (op : OpRun) :
    countUnRef (opEvents op) = (if acquiresHandle op then 1 else 0) ∧
      countRef (opEvents op) = countUnRef (opEvents op) := by
  have hre := refEvents_opEvents op
  have hc := countRef_refEvents (opEvents op)
  by_cases h : acquiresHandle op <;> simp [h] at hre <;>
    rw [hc.1, hc.2, hre] <;> simp [h, countRef, countUnRef, List.countP_cons]

/-- Reading back the key just written returns the written value. -/
theorem storeGet_storePut_same (st : DbStore) (k v : String) :
    storeGet (storePut st k v) k = some v := by
  simp [storeGet, storePut, List.find?_cons]

/-! ## Claim theorems -/

/-- C1: the claim demands that `deleteBucket` invokes its completion callback
exactly once in every branch. Revision v000 does; revision v001 invokes it
twice on every del outcome — once synchronously via its final
`return cb(null)` and once from the `metastore.del` completion callback. -/
theorem deleteBucket_v001_callback_twice (delFails : Bool) :
    cbCount (deleteBucketEvents001 delFails) = 2 ∧
      cbCount (deleteBucketEvents000 delFails) = 1 := by
  cases delFails <;> decide

/-- C2: the refcount never goes negative, each operation that acquires a
namespace handle via `loadDBIfExists` (putObject, getObject, deleteObject,
getBucketAndObject, internalListObject) runs `unRef` exactly once — on
success and error paths alike — matching its single `ref`, and any sequence
of completed operations leaves `refcnt = 0` at the quiescent point. -/
theorem refcnt_discipline (ops : List OpRun) (op : OpRun) :
    runRefcnt 0 (opsEvents ops) = 0 ∧
    refNonneg 0 (opsEvents ops) = true ∧
    countUnRef (opEvents op) = (if acquiresHandle op then 1 else 0) ∧
    countRef (opEvents op) = countUnRef (opEvents op) :=
  ⟨(opsEvents_quiescent ops).1, (opsEvents_quiescent ops).2,
    (opEvents_unRef_once op).1, (opEvents_unRef_once op).2⟩

/-- C3: the listing completion callback is invoked at most once in every
run; on an existing bucket it receives the success payload
(`extension.result()`) exactly when the filter rejected an entry (early
termination) or the scan ended normally, and `InternalError` exactly when
the scan errored without early termination — a terminal event delivered
after the guard flag is set never re-invokes it. -/
theorem internalListObject_cb_once (f : String → Bool) (g : MetaGet)
    (s1 s2 : Bool) (entries : List String) (fin : StreamEnd) (a : String) :
    cbCount (internalListObjectEvents f g s1 s2 entries fin) ≤ 1 ∧
    cbEvents (internalListObjectEvents f (.found a) s1 false entries fin) =
      (if entries.any (fun e => !f e) || fin == StreamEnd.endEv
       then [Ev.cbOk] else [Ev.cbErr .InternalError]) := by
  constructor
  · unfold internalListObjectEvents
    cases h : (loadDBIfExists g s1 s2).result with
    | cbErr e => simp [loadShapeEvents, cbCount, cbEvents, Ev.isCb, List.filter_cons]
    | uncaught => simp [loadShapeEvents, cbCount, cbEvents, Ev.isCb, List.filter_cons]
    | cbOk rt =>
      simp only [loadShapeEvents]
      rw [handleEvents_eventsOf]
      split <;> simp [cbCount, cbEvents, Ev.isCb, List.filter_cons]
  · have hload : (loadDBIfExists (.found a) s1 false).result = .cbOk s1 := by
      cases s1 <;> rfl
    unfold internalListObjectEvents
    rw [hload]
    simp only [loadShapeEvents]
    rw [handleEvents_eventsOf]
    split <;> simp [cbEvents, Ev.isCb, List.filter_cons]

/-- C4 counterexample: a metastore `get` failure that is not NotFound is
still mapped to `NoSuchBucket` by `getBucketAttributes`, not to
`InternalError` as the claim requires. -/
theorem getBucketAttributes_other_error_cex :
    getBucketAttributes .otherErr = Except.error .NoSuchBucket ∧
      getBucketAttributes .otherErr ≠ Except.error .InternalError :=
  ⟨rfl, by simp [getBucketAttributes]⟩

/-- C4 amended: `getBucketAttributes` maps every metastore error — NotFound
or otherwise — to `NoSuchBucket` and never to `InternalError`; the
NotFound/other distinction (`NoSuchBucket` vs `InternalError`) is made by
`checkDbExists` (used by `loadDBIfExists`), not by `getBucketAttributes`. -/
theorem getBucketAttributes_error_mapping :
    (∀ g e, getBucketAttributes g = .error e → e = .NoSuchBucket) ∧
    getBucketAttributes .notFound = .error .NoSuchBucket ∧
    getBucketAttributes .otherErr = .error .NoSuchBucket ∧
    checkDbExists .notFound = .ok false ∧
    checkDbExists .otherErr = .error .InternalError := by
  refine ⟨?_, rfl, rfl, rfl, rfl⟩
  intro g e h
  cases g with
  | found d => simp [getBucketAttributes] at h
  | notFound =>
    simp only [getBucketAttributes, Except.error.injEq] at h
    exact h.symm
  | otherErr =>
    simp only [getBucketAttributes, Except.error.injEq] at h
    exact h.symm

theorem getBucketAttributes_error_mapping_witness :
    S3Error.NoSuchBucket = S3Error.NoSuchBucket :=
  getBucketAttributes_error_mapping.1 .otherErr .NoSuchBucket rfl

/-- C5 counterexample: on an existing bucket, when the first and the retried
`sublevel` lookup both throw, `loadDBIfExists` lets the second exception
escape uncaught; the operation does not complete with `InternalError`. -/
theorem loadDBIfExists_second_failure_cex :
    (loadDBIfExists (.found "b") true true).result = .uncaught ∧
      (loadDBIfExists (.found "b") true true).result ≠ .cbErr .InternalError :=
  ⟨rfl, by decide⟩

/-- C5 amended: exactly one reconnect-and-retry is performed — `reConnect`
runs exactly once, when the bucket exists and the first lookup throws; if
the retried lookup also fails, the exception propagates uncaught (no
callback fires, in particular no `InternalError` completion). -/
theorem loadDBIfExists_one_retry (g : MetaGet) (s1 s2 : Bool) :
    (loadDBIfExists g s1 s2).reconnects = (if g.isFound && s1 then 1 else 0) ∧
    ((loadDBIfExists g s1 s2).result = .uncaught
      ↔ g.isFound = true ∧ s1 = true ∧ s2 = true) ∧
    ((loadDBIfExists g s1 s2).result = .uncaught →
      ∀ e, (loadDBIfExists g s1 s2).result ≠ .cbErr e) := by
  cases g <;> cases s1 <;> cases s2 <;>
    simp [loadDBIfExists, checkDbExists, MetaGet.isFound]

theorem loadDBIfExists_one_retry_witness :
    (loadDBIfExists (.found "bucket") true true).result = .uncaught :=
  ((loadDBIfExists_one_retry (.found "bucket") true true).2.1).mpr ⟨rfl, rfl, rfl⟩

/-- C6 counterexample: a single deferred `reConnect` (issued at refcnt 1)
performs the real reconnect when the count first reaches 0 and then fires
AGAIN at the next transition to 0: two real reconnects, where the claim
requires exactly one with no re-firing. -/
theorem reConnect_not_one_shot_cex :
    (runClient ⟨0, 0, 0⟩
      [.refEv, .reconnectEv, .unRefEv, .refEv, .unRefEv]).realReconnects = 2 ∧
    ¬((runClient ⟨0, 0, 0⟩
      [.refEv, .reconnectEv, .unRefEv, .refEv, .unRefEv]).realReconnects = 1) := by
  decide

/-- C6 amended: a real reconnect happens immediately exactly when
refcnt = 0; `reConnect` under load registers a PERSISTENT idle listener
(`on`, not `once`) that performs no real reconnect while draining, fires
when refcnt falls to 0, and fires again on every later transition of
refcnt to 0. -/
theorem reConnect_listener_persists (s : ClientState) (h : s.refcnt = 1) :
    (∀ t : ClientState, t.refcnt = 0 →
      stepClient t .reconnectEv = { t with realReconnects := t.realReconnects + 1 }) ∧
    (stepClient s .reconnectEv).realReconnects = s.realReconnects ∧
    (runClient s [.reconnectEv, .unRefEv]).realReconnects
        = s.realReconnects + s.idleListeners + 1 ∧
    (runClient s [.reconnectEv, .unRefEv, .refEv, .unRefEv]).realReconnects
        = s.realReconnects + 2 * s.idleListeners + 2 := by
  obtain ⟨rc, L, R⟩ := s
  simp only [ClientState.mk.injEq] at h ⊢
  subst h
  refine ⟨fun t ht => by simp [stepClient, ht], by simp [stepClient], ?_, ?_⟩
  · simp [runClient, stepClient]
    omega
  · simp [runClient, stepClient]
    omega

theorem reConnect_listener_persists_witness :
    (runClient ⟨1, 0, 5⟩
      [.reconnectEv, .unRefEv, .refEv, .unRefEv]).realReconnects = 5 + 2 * 0 + 2 :=
  (reConnect_listener_persists ⟨1, 0, 5⟩ rfl).2.2.2

/-- C7: on a nonempty string whose last code unit is below 0xFF,
`_setCharAt` preserves the length, changes nothing but the last code unit,
increments that unit by exactly one (no carry), and produces a string
strictly greater in raw lexicographic order. -/
theorem setCharAt_advances (s : List Nat) (b : Nat)
    (hb : s.getLast? = some b) (hlt : b < 255) :
    (setCharAt s).length = s.length ∧
    (setCharAt s).dropLast = s.dropLast ∧
    (setCharAt s).getLast? = some (b + 1) ∧
    List.Lex (· < ·) s (setCharAt s) := by
  obtain ⟨t, ht⟩ := getLast?_eq_some_split s b hb
  subst ht
  have hmod : (b + 1) % 65536 = b + 1 := Nat.mod_eq_of_lt (by omega)
  have hset : setCharAt (t ++ [b]) = t ++ [b + 1] := by
    simp [setCharAt, hmod]
  rw [hset]
  exact ⟨by simp, by simp, by simp, lex_append_last t b (b + 1) (by omega)⟩

theorem setCharAt_advances_witness :
    (setCharAt [100, 101]).length = ([100, 101] : List Nat).length ∧
    (setCharAt [100, 101]).dropLast = ([100, 101] : List Nat).dropLast ∧
    (setCharAt [100, 101]).getLast? = some (101 + 1) ∧
    List.Lex (· < ·) [100, 101] (setCharAt [100, 101]) :=
  setCharAt_advances [100, 101] 101 rfl (by decide)

/-- C8: on an existing bucket with the requested key absent from its
namespace, `getBucketAndObject` succeeds, returning the serialized bucket
attributes with the `obj` field absent; the object-level NotFound is an
error (`NoSuchObject`) only in `getObject`; and a missing bucket yields
`NoSuchBucket`. -/
theorem getBucketAndObject_missing_object (a k : String) (st : DbStore)
    (s1 : Bool) (hk : storeGet st k = none) :
    getBucketAndObject (.found a) (.found a) s1 false st k false = .bucketOnly a ∧
    getObject (.found a) s1 false st k false = .cbErr .NoSuchObject ∧
    (∀ s2 gf, getBucketAndObject .notFound (.found a) s1 s2 st k gf
      = .errOut .NoSuchBucket) := by
  have hload : (loadDBIfExists (.found a) s1 false).result = .cbOk s1 := by
    cases s1 <;> rfl
  refine ⟨?_, ?_, fun s2 gf => ?_⟩
  · simp [getBucketAndObject, getBucketAttributes, hload, hk]
  · simp [getObject, hload, hk]
  · simp [getBucketAndObject, getBucketAttributes]

theorem getBucketAndObject_missing_object_witness :
    getBucketAndObject (.found "battr") (.found "battr") false false [] "missing" false
      = .bucketOnly "battr" :=
  (getBucketAndObject_missing_object "battr" "missing" [] false rfl).1

/-- C9: whenever `putObject` succeeds on an existing bucket, a subsequent
`getObject` of the same key on the resulting store (no intervening write on
the key), with a clean read, returns exactly the value that was put: the
value round-trips through the `JSON.stringify` / `JSON.parse` pair used for
storage. -/
theorem putObject_getObject_roundtrip (a k : String) (st : DbStore) (v : Json)
    (s1 s2 s1g pf : Bool)
    (hput : (putObject (.found a) s1 s2 st k v pf).2 = .cbOkP) :
    getObject (.found a) s1g false (putObject (.found a) s1 s2 st k v pf).1 k false
      = .cbOkVal v := by
  have hloadg : (loadDBIfExists (.found a) s1g false).result = .cbOk s1g := by
    cases s1g <;> rfl
  cases s1 <;> cases s2 <;> cases pf <;>
    simp [putObject, loadDBIfExists, checkDbExists] at hput ⊢ <;>
    simp [getObject, hloadg, storeGet_storePut_same, jsonParse_stringify]

theorem putObject_getObject_roundtrip_witness :
    getObject (.found "a") false false
      (putObject (.found "a") false false [] "key"
        (Json.arr [Json.null, Json.bool true]) false).1 "key" false
      = .cbOkVal (Json.arr [Json.null, Json.bool true]) :=
  putObject_getObject_roundtrip "a" "key" [] _ false false false false rfl

/-- C10: `getObject` runs an unguarded `JSON.parse` after releasing the
refcount: every value stored through `putObject` parses back successfully,
but stored bytes that are not valid JSON make the parse exception escape the
completion path — `unRef` has already run, no callback fires (in particular
no `InternalError` callback), and the operation ends in a throw. -/
theorem getObject_unguarded_parse :
    (∀ (a k : String) (st : DbStore) (v : Json) (s1 : Bool),
      getObject (.found a) s1 false (storePut st k (jsonStringify v)) k false
        = .cbOkVal v ∧
      getObjectEvents (.found a) s1 false (storePut st k (jsonStringify v)) k false
        = [.ref, .unRef, .cbOk]) ∧
    getObject (.found "a") false false [("k", "nope")] "k" false = .thrown ∧
    getObjectEvents (.found "a") false false [("k", "nope")] "k" false
      = [.ref, .unRef, .throwEv] ∧
    cbCount (getObjectEvents (.found "a") false false [("k", "nope")] "k" false) = 0 := by
  refine ⟨?_, rfl, rfl, rfl⟩
  intro a k st v s1
  have hload : (loadDBIfExists (.found a) s1 false).result = .cbOk s1 := by
    cases s1 <;> rfl
  constructor
  · simp [getObject, hload, storeGet_storePut_same, jsonParse_stringify]
  · simp [getObjectEvents, hload, loadShapeEvents, getTailEv,
      storeGet_storePut_same, jsonParse_stringify]
